import Mathlib

/-!
# Verification of the canvas-demo-server segmentation / publish pipeline

Shallow embedding of the segment-planning, playlist-building, rewrite and
publish/republish functions of the repository (`buildSegments`,
`extractRegularSegments`, `generateBlackoutSegments`, `createPlaylist`,
`updatePlaylistContent`, the m3u8 URL-strip in `downloadFolderFromS3`, the
remote-object effects of the `/modify-AES` handler), together with proofs of
the specification's claims about them.

Times are modelled as rationals (`ℚ`); the JS code uses IEEE doubles, but all
claims under scrutiny are about the exact-arithmetic structure of the
algorithms.  The JS field name `end` is a Lean keyword and is embedded as
`stop`.
-/

namespace Canvas

/-- A caller-supplied blackout interval `{start, end}` (source:
`convertBlackoutSegments` output shape). `stop` embeds the JS field `end`. -/
structure Interval where
  start : ℚ
  stop : ℚ
deriving DecidableEq, Repr

/-- A planned segment `{start, end, isBlackout}` (source: `buildSegments`
output shape). `stop` embeds the JS field `end`. -/
structure Segment where
  start : ℚ
  stop : ℚ
  isBlackout : Bool
deriving DecidableEq, Repr

/-- Insert an interval into a list ordered by ascending `start`; embeds the
behaviour of the JS `customSegments.sort((a, b) => a.start - b.start)`
comparator on the lists considered here. -/
def insertByStart (i : Interval) : List Interval → List Interval
  | [] => [i]
  | j :: rest => if i.start ≤ j.start then i :: j :: rest else j :: insertByStart i rest

/-- Sort intervals ascending by `start` (the `sort` call at the top of
`buildSegments`). -/
def sortByStart : List Interval → List Interval
  | [] => []
  | i :: rest => insertByStart i (sortByStart rest)

/-- The cursor loop of `buildSegments`, plus the trailing-segment emission
after the loop: for each interval, emit a leading non-blackout segment when
`interval.start > cursor`, then the blackout segment, then advance the cursor
to `interval.end`; when the interval list is exhausted, emit
`[cursor, totalDuration)` when `cursor < totalDuration`. -/
def buildSegmentsFrom (totalDuration : ℚ) : ℚ → List Interval → List Segment
  | cur, [] => if cur < totalDuration then [⟨cur, totalDuration, false⟩] else []
  | cur, i :: rest =>
      (if i.start > cur then [⟨cur, i.start, false⟩] else []) ++
        ⟨i.start, i.stop, true⟩ :: buildSegmentsFrom totalDuration i.stop rest

/-- Embedding of `buildSegments(totalDuration, customSegments)` from the
video-conversion module: sort the custom segments by start, then run the
cursor loop from time 0. -/
def buildSegments (totalDuration : ℚ) (customSegments : List Interval) : List Segment :=
  buildSegmentsFrom totalDuration 0 (sortByStart customSegments)

/-- Segment duration `end - start`. -/
def Segment.dur (s : Segment) : ℚ := s.stop - s.start

/-! ## Chunk naming and playlist construction -/

/-- Embedding of `String(index).padStart(3, '0')`: the decimal digits of `n`, left-padded
with zeros to width 3. -/
def pad3 (n : Nat) : String :=
  let s := toString n
  if 3 ≤ s.length then s else String.mk (List.replicate (3 - s.length) '0') ++ s

/-- Local chunk file name `segment_NNN.ts` written by the extraction loop. -/
def segName (i : Nat) : String := "segment_" ++ pad3 i ++ ".ts"

/-- Local chunk file name `blackout_NNN.ts` written by the filler loop. -/
def blackoutName (i : Nat) : String := "blackout_" ++ pad3 i ++ ".ts"

/-- Left-pad decimal digits with zeros to width 6 (fractional part of
`toFixed(6)`). -/
def pad6 (n : Nat) : String :=
  let s := toString n
  if 6 ≤ s.length then s else String.mk (List.replicate (6 - s.length) '0') ++ s

/-- Behaviour of `toFixed(6)` on a non-negative rational: round to the nearest multiple of
`10⁻⁶`, ties toward the larger value, and print with exactly six fractional
digits. -/
def fixed6OfNonneg (q : ℚ) : String :=
  toString ((⌊q * 1000000 + 1 / 2⌋).toNat / 1000000) ++ "." ++
    pad6 ((⌊q * 1000000 + 1 / 2⌋).toNat % 1000000)

/-- Embedding of JS `Number.prototype.toFixed(6)` on exact rationals: the
sign is printed first, then the rounded non-negative magnitude. -/
def ratToFixed6 (q : ℚ) : String :=
  if q < 0 then "-" ++ fixed6OfNonneg (-q) else fixed6OfNonneg q

/-- Embedding of `Math.max(...ds)`: `none` models the `-Infinity` result on an empty
argument list, otherwise the fold of binary `max`. -/
def maxDur? : List ℚ → Option ℚ
  | [] => none
  | d :: ds => some (ds.foldl max d)

/-- The `#EXT-X-TARGETDURATION` value rendered by `createPlaylist`:
`Math.ceil(Math.max(...segments.map(s => s.end - s.start)))`. -/
def targetDurStr (segs : List Segment) : String :=
  match maxDur? (segs.map Segment.dur) with
  | none => "-Infinity"
  | some m => toString (⌈m⌉ : ℤ)

/-- The five fixed header lines of `createPlaylist`. -/
def playlistHeader (segs : List Segment) : List String :=
  ["#EXTM3U", "#EXT-X-VERSION:3",
   "#EXT-X-TARGETDURATION:" ++ targetDurStr segs,
   "#EXT-X-MEDIA-SEQUENCE:0", "#EXT-X-PLAYLIST-TYPE:VOD"]

/-- The per-segment lines pushed by the `forEach` of `createPlaylist`: an
`#EXTINF` duration directive for every segment, followed by a chunk
reference whose choice depends on the playlist type exactly as in the
source (`"normal"` always references `segment_i`; `"blackout"` references
`blackout_i` for blackout segments and `segment_i` otherwise; any other
type pushes no reference). -/
def segmentLines (ptype : String) (segs : List Segment) : List String :=
  (segs.enum).flatMap fun p =>
    ("#EXTINF:" ++ ratToFixed6 p.2.dur ++ ",") ::
      (if ptype = "normal" then [segName p.1]
       else if ptype = "blackout" then
         [if p.2.isBlackout then blackoutName p.1 else segName p.1]
       else [])

/-- Embedding of `createPlaylist(segments, playlistType, outputDir)`: the
list of lines of the generated document (the file content is these lines
joined with `"\n"`). -/
def createPlaylist (segs : List Segment) (ptype : String) : List String :=
  playlistHeader segs ++ (segmentLines ptype segs ++ ["#EXT-X-ENDLIST"])

/-! ## Chunk generation (`extractRegularSegments` / `generateBlackoutSegments`)

`createM3U8WithExactSegments` calls `extractRegularSegments(inputPath,
allSegments, outputDir)` — the extraction loop runs over the FULL timeline —
and then `generateBlackoutSegments(allSegments, resolution, outputDir)`,
whose loop body runs only where `isBlackout` holds. -/

/-- The timeline indices at which the extraction loop invokes
`ffmpeg`-range-extraction and writes `segment_i.ts` (every index of the list
it receives). -/
def extractionIndices (segs : List Segment) : List Nat :=
  (segs.enum).map fun p => p.1

/-- The timeline indices at which the filler loop invokes `ffmpeg`
filler synthesis and writes `blackout_i.ts`. -/
def fillerIndices (segs : List Segment) : List Nat :=
  ((segs.enum).filter fun p => p.2.isBlackout).map fun p => p.1

/-- How many chunk files are actually generated for timeline index `i`. -/
def chunkCount (segs : List Segment) (i : Nat) : Nat :=
  (extractionIndices segs).count i + (fillerIndices segs).count i

/-! ## Playlist rewrite (`updatePlaylistContent`) and the download-side strip

`updatePlaylistContent` reads the playlist file, splits its content on
`"\n"`, maps each line, and joins with `"\n"`; the embedding below acts on
the split line list, which is the state the code actually transforms.
String `trim` and `endsWith` are embedded on the character lists of the
strings (same semantics as the JS methods, and kernel-computable). -/

/-- JS `String.prototype.trim()`: drop whitespace from both ends. -/
def trimStr (s : String) : String :=
  ⟨((s.data.dropWhile Char.isWhitespace).reverse.dropWhile Char.isWhitespace).reverse⟩

/-- JS `String.prototype.endsWith(suff)`: suffix test on characters. -/
def endsWithStr (suff s : String) : Bool := suff.data.isSuffixOf s.data

/-- The per-line transform of `updatePlaylistContent`: if the trimmed line
ends with `.ts` and the mapping holds a truthy (non-empty) URL under the
trimmed line as key, return that URL, else return the line unchanged
(`fileUrlMapping[trimmed]` is truthy exactly when the key is present with a
non-empty string value). -/
def rewriteLine (m : List (String × String)) (line : String) : String :=
  if endsWithStr ".ts" (trimStr line) then
    match m.lookup (trimStr line) with
    | some url => if url ≠ "" then url else line
    | none => line
  else line

/-- Embedding of `updatePlaylistContent(playlistPath, fileUrlMapping)` on the
split line list of the playlist file: map `rewriteLine` over every line. -/
def updatePlaylistContent (lines : List String) (m : List (String × String)) :
    List String :=
  lines.map (rewriteLine m)

/-- Modelled from the spec: the rewrite step as C7 words it — "replace any
line that is exactly a known local chunk name with its mapped URL; all other
lines pass through unchanged" (no trimming, no `.ts`/truthiness test). -/
def specRewriteLine (m : List (String × String)) (line : String) : String :=
  match m.lookup line with
  | some url => url
  | none => line

/-! ## Download-side URL strip and the publish map (C8) -/

/-- The per-line strip of `downloadFolderFromS3` for m3u8 files: when the
line starts with the remote URL base, remove that leading occurrence
(`line.startsWith(s3UrlPrefix) ? line.replace(s3UrlPrefix, '') : line`).
Starting-with is the character-list prefix test. -/
def stripLine (pre : String) (line : String) : String :=
  if pre.data.isPrefixOf line.data then ⟨line.data.drop pre.data.length⟩ else line

/-- The m3u8 post-processing of `downloadFolderFromS3` on the split line
list: strip the URL base from every line. -/
def stripPlaylistLines (pre : String) (lines : List String) : List String :=
  lines.map (stripLine pre)

/-- The `PublishedArtifactMap` produced by publishing local files under a
URL base `pre` when the store reports the canonical virtual-hosted location
for each object: file `f` maps to `pre ++ f`. -/
def publishMap (pre : String) (files : List String) : List (String × String) :=
  files.map fun f => (f, pre ++ f)

/-! ## Remote-key effect of `/modify-AES` (C2) -/

/-- The local artifact files present in the output directory after
generation for a timeline: `segment_i.ts` for every index, `blackout_i.ts`
for every blackout index, and the two playlist documents. These are exactly
the files `uploadHlsFilesToS3` uploads. -/
def localFiles (segs : List Segment) : List String :=
  ((segs.enum).map fun p => segName p.1) ++
    (((segs.enum).filter fun p => p.2.isBlackout).map fun p => blackoutName p.1) ++
    ["output.m3u8", "blackout.m3u8"]

/-- The remote-key effect of the `/modify-AES` handler on the bucket:
list and bulk-delete every key under the job's folder, upload every local
file under it (`key = folder + file`), then re-upload the two rewritten
playlists at their fixed keys. Bucket content is tracked as a key list up to
membership. -/
def modifyRemoteKeys (pre : String) (files : List String) (keys : List String) :
    List String :=
  (keys.filter fun k => !(pre.data.isPrefixOf k.data)) ++
    (files.map fun f => pre ++ f) ++
    [pre ++ "output.m3u8", pre ++ "blackout.m3u8"]

/-! ## The `/modify-AES` control flow and the lock record (C9) -/

/-- The fields of the stored lock record that the modify flow may change:
the redacted locator (`LockJsonObject.lockedcontenturl`) and the
blackout-interval list (`LockJsonObject.locks["blackout-locks"]`, modelled
by its interval timings), plus the original locator the flow reads. -/
structure LockRecord where
  originalcontentUrl : String
  lockedcontenturl : String
  blackoutLocks : List Interval
deriving DecidableEq, Repr

/-- The handler's possible responses: 400 for missing fields, 404 for an
unknown lock, 500 for an invalid original URL or any thrown step, 200 with
the new redacted URL on success. -/
inductive ModifyOutcome where
  | missingFields
  | notFound
  | invalidUrl
  | serverError (msg : String)
  | ok (blackoutUrl : String)
deriving DecidableEq, Repr

/-- Whether the outcome is the 200 success response. -/
def ModifyOutcome.isOk : ModifyOutcome → Bool
  | .ok _ => true
  | _ => false

/-- Embedding of the `/modify-AES` handler's control flow. Each fallible
external step (download of the original, HLS generation, list+delete of the
old folder, chunk upload, the two playlist uploads, local cleanup) is an
`Except` input; the stored record is threaded through and reassigned only in
the final, all-steps-succeeded branch, exactly as in the source, where
`lock.LockJsonObject` is mutated and saved after every other step. -/
def modifyAES (fieldsPresent : Bool) (store : Option LockRecord)
    (download : Except String Unit) (generation : Except String Unit)
    (deleteStep : Except String Unit)
    (uploadChunks : Except String (List (String × String)))
    (uploadNormal : Except String String)
    (uploadBlackout : Except String String)
    (cleanup : Except String Unit)
    (newLocks : List Interval) : ModifyOutcome × Option LockRecord :=
  if !fieldsPresent then (.missingFields, store)
  else
    match store with
    | none => (.notFound, store)
    | some lock =>
      if (lock.originalcontentUrl.splitOn ".amazonaws.com/").length < 2 then
        (.invalidUrl, store)
      else
        match download with
        | .error e => (.serverError e, store)
        | .ok _ =>
          match generation with
          | .error e => (.serverError e, store)
          | .ok _ =>
            match deleteStep with
            | .error e => (.serverError e, store)
            | .ok _ =>
              match uploadChunks with
              | .error e => (.serverError e, store)
              | .ok _ =>
                match uploadNormal with
                | .error e => (.serverError e, store)
                | .ok _ =>
                  match uploadBlackout with
                  | .error e => (.serverError e, store)
                  | .ok blackoutUrl =>
                    match cleanup with
                    | .error e => (.serverError e, store)
                    | .ok _ =>
                      (.ok blackoutUrl,
                        some { lock with
                               lockedcontenturl := blackoutUrl,
                               blackoutLocks := newLocks })

/-! ## Theorems -/

/-- Inserting an element that is already `≤` the head leaves a list alone -/
theorem insertByStart_le (i j : Interval) (rest : List Interval)
    (h : i.start ≤ j.start) : insertByStart i (j :: rest) = i :: j :: rest := by
  simp [insertByStart, h]

/-- Sorting a list already ascending by `start` is the identity (so for the
sorted inputs of the planner claims, the JS `sort` call is a no-op). -/
theorem sortByStart_eq_self (l : List Interval)
    (h : List.Chain' (fun a b => a.start ≤ b.start) l) : sortByStart l = l := by
  induction l with
  | nil => rfl
  | cons i rest ih =>
    have hrest : List.Chain' (fun a b : Interval => a.start ≤ b.start) rest :=
      h.tail
    rw [sortByStart, ih hrest]
    cases rest with
    | nil => rfl
    | cons j r =>
      exact insertByStart_le i j r (List.chain'_cons.mp h).1

/-- Disjoint intervals with positive length are ascending by `start`. -/
theorem chain_start_of_disjoint (l : List Interval)
    (hpos : ∀ i ∈ l, i.start < i.stop)
    (hd : List.Chain' (fun a b => a.stop ≤ b.start) l) :
    List.Chain' (fun a b => a.start ≤ b.start) l := by
  induction l with
  | nil => simp
  | cons i rest ih =>
    cases rest with
    | nil => simp
    | cons j r =>
      rw [List.chain'_cons] at hd ⊢
      refine ⟨?_, ih (fun x hx => hpos x (List.mem_cons_of_mem _ hx)) hd.2⟩
      have h1 := hpos i (by simp)
      linarith [hd.1]

/-- In a disjoint chain of positive intervals, the head's `end` is at most
every later interval's `start`. -/
theorem head_stop_le_of_disjoint (i : Interval) (rest : List Interval)
    (hpos : ∀ j ∈ rest, j.start < j.stop)
    (hch : List.Chain' (fun a b => a.stop ≤ b.start) (i :: rest)) :
    ∀ j ∈ rest, i.stop ≤ j.start := by
  induction rest generalizing i with
  | nil => simp
  | cons j r ih =>
    intro k hk
    rw [List.chain'_cons] at hch
    rcases List.mem_cons.mp hk with rfl | hk'
    · exact hch.1
    · have hj := hpos j (by simp)
      have hr := ih j (fun x hx => hpos x (List.mem_cons_of_mem _ hx)) hch.2 k hk'
      linarith

/-- The full invariant of the cursor loop of `buildSegments`: starting from
`cur ≤ D` with disjoint in-range intervals at or after `cur`, the emitted
segments are contiguous (each segment's `end` equals the next `start`),
start exactly at `cur` and end exactly at `D` (unless `cur = D` and nothing
remains), have positive duration and stay within `[cur, D]`, contain one
blackout segment per interval, and cover every time in `[cur, D)`. -/
theorem buildSegmentsFrom_spec (D : ℚ) (ivs : List Interval) :
    ∀ cur : ℚ, cur ≤ D →
    (∀ i ∈ ivs, cur ≤ i.start ∧ i.start < i.stop ∧ i.stop ≤ D) →
    List.Chain' (fun a b => a.stop ≤ b.start) ivs →
    ((buildSegmentsFrom D cur ivs = [] ∧ cur = D) ∨
      ((buildSegmentsFrom D cur ivs).head?.map Segment.start = some cur ∧
       (buildSegmentsFrom D cur ivs).getLast?.map Segment.stop = some D)) ∧
    List.Chain' (fun s t => s.stop = t.start) (buildSegmentsFrom D cur ivs) ∧
    (∀ s ∈ buildSegmentsFrom D cur ivs, s.start < s.stop ∧ cur ≤ s.start ∧ s.stop ≤ D) ∧
    ((buildSegmentsFrom D cur ivs).filter (fun s => s.isBlackout)).length = ivs.length ∧
    (∀ t : ℚ, cur ≤ t → t < D →
      ∃ s ∈ buildSegmentsFrom D cur ivs, s.start ≤ t ∧ t < s.stop) := by
  induction ivs with
  | nil =>
    intro cur hcur _ _
    by_cases h : cur < D
    · rw [show buildSegmentsFrom D cur [] = [⟨cur, D, false⟩] from by
        simp [buildSegmentsFrom, h]]
      refine ⟨Or.inr ⟨rfl, rfl⟩, by simp, ?_, by simp, ?_⟩
      · intro s hs
        simp at hs
        subst hs
        exact ⟨h, le_refl _, le_refl _⟩
      · intro t hct htD
        exact ⟨⟨cur, D, false⟩, by simp, hct, htD⟩
    · have heq : cur = D := le_antisymm hcur (not_lt.mp h)
      rw [show buildSegmentsFrom D cur [] = [] from by simp [buildSegmentsFrom, h]]
      refine ⟨Or.inl ⟨rfl, heq⟩, by simp, by simp, by simp, ?_⟩
      intro t hct htD
      exact absurd (lt_of_le_of_lt hct htD) h
  | cons i rest ih =>
    intro cur hcur hin hch
    have hi := hin i (by simp)
    have hposr : ∀ j ∈ rest, j.start < j.stop :=
      fun j hj => (hin j (List.mem_cons_of_mem _ hj)).2.1
    have hafter : ∀ j ∈ rest, i.stop ≤ j.start :=
      head_stop_le_of_disjoint i rest hposr hch
    have hin' : ∀ j ∈ rest, i.stop ≤ j.start ∧ j.start < j.stop ∧ j.stop ≤ D :=
      fun j hj => ⟨hafter j hj, (hin j (List.mem_cons_of_mem _ hj)).2.1,
        (hin j (List.mem_cons_of_mem _ hj)).2.2⟩
    obtain ⟨hd_rec, hch_rec, hbd_rec, hcnt_rec, hcov_rec⟩ :=
      ih i.stop hi.2.2 hin' hch.tail
    set recSegs := buildSegmentsFrom D i.stop rest with hrec
    have headOk : ∀ b ∈ recSegs.head?, i.stop = b.start := by
      intro b hb
      rcases hd_rec with ⟨hnil, _⟩ | ⟨hh, _⟩
      · rw [hnil] at hb; simp at hb
      · cases hhead : recSegs.head? with
        | none => rw [hhead] at hb; simp at hb
        | some c =>
          rw [hhead] at hb hh
          simp at hb hh
          rw [hb] at hh
          exact hh.symm
    have lastOk : ∀ blk : Segment, blk.stop = i.stop →
        ((blk :: recSegs).getLast?.map Segment.stop = some D) := by
      intro blk hblk
      cases hrc : recSegs with
      | nil =>
        rcases hd_rec with ⟨_, hD'⟩ | ⟨hh, _⟩
        · simp [hrc, hblk, hD']
        · rw [hrc] at hh; simp at hh
      | cons c r =>
        rcases hd_rec with ⟨hnil, _⟩ | ⟨_, hl⟩
        · rw [hrc] at hnil; simp at hnil
        · rw [List.getLast?_cons_cons]
          rw [hrc] at hl
          exact hl
    have chainTail : List.Chain' (fun s t => s.stop = t.start)
        (Segment.mk i.start i.stop true :: recSegs) := by
      rw [List.chain'_cons']
      exact ⟨fun b hb => headOk b hb, hch_rec⟩
    have bdTail : ∀ s ∈ Segment.mk i.start i.stop true :: recSegs,
        s.start < s.stop ∧ i.start ≤ s.start ∧ s.stop ≤ D := by
      intro s hs
      rcases List.mem_cons.mp hs with rfl | hs'
      · exact ⟨hi.2.1, le_refl _, hi.2.2⟩
      · obtain ⟨h1, h2, h3⟩ := hbd_rec s hs'
        exact ⟨h1, le_trans (le_of_lt hi.2.1) h2, h3⟩
    have covTail : ∀ t : ℚ, i.start ≤ t → t < D →
        ∃ s ∈ Segment.mk i.start i.stop true :: recSegs, s.start ≤ t ∧ t < s.stop := by
      intro t hit htD
      rcases lt_or_le t i.stop with hlt | hge
      · exact ⟨⟨i.start, i.stop, true⟩, by simp, hit, hlt⟩
      · obtain ⟨s, hs, hst⟩ := hcov_rec t hge htD
        exact ⟨s, List.mem_cons_of_mem _ hs, hst⟩
    by_cases hlead : i.start > cur
    · have hsegs : buildSegmentsFrom D cur (i :: rest) =
          Segment.mk cur i.start false :: Segment.mk i.start i.stop true :: recSegs := by
        simp [buildSegmentsFrom, hlead, hrec]
      rw [hsegs]
      refine ⟨Or.inr ⟨by simp, ?_⟩, ?_, ?_, ?_, ?_⟩
      · rw [List.getLast?_cons_cons]
        exact lastOk ⟨i.start, i.stop, true⟩ rfl
      · rw [List.chain'_cons]
        exact ⟨rfl, chainTail⟩
      · intro s hs
        rcases List.mem_cons.mp hs with rfl | hs'
        · exact ⟨hlead, le_refl _, le_trans (le_of_lt hi.2.1) hi.2.2⟩
        · obtain ⟨h1, h2, h3⟩ := bdTail s hs'
          exact ⟨h1, le_trans (le_of_lt hlead) h2, h3⟩
      · simp [List.filter, hcnt_rec]
      · intro t hct htD
        rcases lt_or_le t i.start with hlt | hge
        · exact ⟨⟨cur, i.start, false⟩, by simp, hct, hlt⟩
        · obtain ⟨s, hs, hst⟩ := covTail t hge htD
          exact ⟨s, List.mem_cons_of_mem _ hs, hst⟩
    · have hstart : i.start = cur := le_antisymm (not_lt.mp hlead) hi.1
      have hsegs : buildSegmentsFrom D cur (i :: rest) =
          Segment.mk i.start i.stop true :: recSegs := by
        simp [buildSegmentsFrom, hlead, hrec]
      rw [hsegs]
      refine ⟨Or.inr ⟨by simp [hstart], lastOk ⟨i.start, i.stop, true⟩ rfl⟩,
        chainTail, ?_, ?_, ?_⟩
      · intro s hs
        obtain ⟨h1, h2, h3⟩ := bdTail s hs
        exact ⟨h1, hstart ▸ h2, h3⟩
      · simp [List.filter, hcnt_rec]
      · intro t hct htD
        exact covTail t (hstart ▸ hct) htD

/-- C1: For every duration `D > 0` and every list of blackout intervals that
are disjoint, sorted (each interval ends at or before the next begins) and
contained in `[0, D]`, `buildSegments` returns an ordered segment sequence
that is contiguous (each segment's `end` equals the next segment's `start`),
covers exactly `[0, D)` with zero gaps and zero overlaps (it starts at `0`,
ends at `D`, every segment has positive duration, and every time in `[0, D)`
lies in some segment), and contains exactly as many blackout segments as
there are input intervals. -/
theorem C1_buildSegments_covers (D : ℚ) (ivs : List Interval)
    (hD : 0 < D)
    (hin : ∀ i ∈ ivs, 0 ≤ i.start ∧ i.start < i.stop ∧ i.stop ≤ D)
    (hdisj : List.Chain' (fun a b => a.stop ≤ b.start) ivs) :
    buildSegments D ivs ≠ [] ∧
    (buildSegments D ivs).head?.map Segment.start = some 0 ∧
    (buildSegments D ivs).getLast?.map Segment.stop = some D ∧
    List.Chain' (fun s t => s.stop = t.start) (buildSegments D ivs) ∧
    (∀ s ∈ buildSegments D ivs, s.start < s.stop) ∧
    (∀ t : ℚ, 0 ≤ t → t < D →
      ∃ s ∈ buildSegments D ivs, s.start ≤ t ∧ t < s.stop) ∧
    ((buildSegments D ivs).filter (fun s => s.isBlackout)).length = ivs.length := by
  have hpos : ∀ i ∈ ivs, i.start < i.stop := fun i hi => (hin i hi).2.1
  have hid : sortByStart ivs = ivs :=
    sortByStart_eq_self ivs (chain_start_of_disjoint ivs hpos hdisj)
  have hin0 : ∀ i ∈ ivs, (0 : ℚ) ≤ i.start ∧ i.start < i.stop ∧ i.stop ≤ D := hin
  obtain ⟨hd, hch, hbd, hcnt, hcov⟩ :=
    buildSegmentsFrom_spec D ivs 0 (le_of_lt hD) hin0 hdisj
  rw [buildSegments, hid]
  rcases hd with ⟨_, h0D⟩ | ⟨hh, hl⟩
  · exact absurd h0D (by linarith)
  · refine ⟨?_, hh, hl, hch, fun s hs => (hbd s hs).1, hcov, hcnt⟩
    intro hemp
    rw [hemp] at hh
    simp at hh

/-- Witness for C1 at `D = 100`, intervals `[(30,45), (60,70)]` (the example
timeline of the specification). -/
theorem C1_buildSegments_covers_witness :
    buildSegments 100 [⟨30, 45⟩, ⟨60, 70⟩] ≠ [] ∧
    (buildSegments 100 [⟨30, 45⟩, ⟨60, 70⟩]).head?.map Segment.start = some 0 ∧
    (buildSegments 100 [⟨30, 45⟩, ⟨60, 70⟩]).getLast?.map Segment.stop = some 100 ∧
    List.Chain' (fun s t => s.stop = t.start) (buildSegments 100 [⟨30, 45⟩, ⟨60, 70⟩]) ∧
    (∀ s ∈ buildSegments 100 [⟨30, 45⟩, ⟨60, 70⟩], s.start < s.stop) ∧
    (∀ t : ℚ, 0 ≤ t → t < 100 →
      ∃ s ∈ buildSegments 100 [⟨30, 45⟩, ⟨60, 70⟩], s.start ≤ t ∧ t < s.stop) ∧
    ((buildSegments 100 [⟨30, 45⟩, ⟨60, 70⟩]).filter (fun s => s.isBlackout)).length =
      ([⟨30, 45⟩, ⟨60, 70⟩] : List Interval).length :=
  C1_buildSegments_covers 100 [⟨30, 45⟩, ⟨60, 70⟩] (by norm_num)
    (by intro i hi; fin_cases hi <;> norm_num)
    (by rw [List.chain'_cons]
        exact ⟨by norm_num, List.chain'_singleton _⟩)

/-- C5: the planner neither merges nor clamps caller intervals — there is a
duration `D > 0` and a list with overlapping intervals on which
`buildSegments` produces a segment sequence that is not in ascending time
order (some segment begins before the previous one has ended), as the claim
states. -/
theorem C5_no_merge_no_clamp :
    ∃ (D : ℚ) (ivs : List Interval), 0 < D ∧
      ((∃ a ∈ ivs, ∃ b ∈ ivs, a ≠ b ∧ a.start < b.stop ∧ b.start < a.stop) ∨
        ∃ i ∈ ivs, D < i.stop) ∧
      ((∃ s ∈ buildSegments D ivs, s.stop < s.start) ∨
        ¬ List.Chain' (fun s t : Segment => s.stop ≤ t.start) (buildSegments D ivs)) := by
  refine ⟨10, [⟨0, 5⟩, ⟨3, 8⟩], by norm_num, Or.inl ?_, Or.inr ?_⟩
  · exact ⟨⟨0, 5⟩, by simp, ⟨3, 8⟩, by simp, by decide, by norm_num, by norm_num⟩
  · have : buildSegments 10 [⟨0, 5⟩, ⟨3, 8⟩] =
        [⟨0, 5, true⟩, ⟨3, 8, true⟩, ⟨8, 10, false⟩] := by decide
    rw [this, List.chain'_cons]
    intro hch
    exact absurd hch.1 (by norm_num)

/-! ## Playlist lemmas -/

/-- The fold of binary `max` computes an upper bound that is attained. -/
theorem foldl_max_spec (d : ℚ) (ds : List ℚ) :
    (∀ x ∈ d :: ds, x ≤ ds.foldl max d) ∧ ds.foldl max d ∈ d :: ds := by
  induction ds generalizing d with
  | nil => exact ⟨by simp, by simp⟩
  | cons e ds ih =>
    obtain ⟨ihle, ihmem⟩ := ih (max d e)
    have hfold : (e :: ds).foldl max d = ds.foldl max (max d e) := rfl
    constructor
    · intro x hx
      rw [hfold]
      rcases List.mem_cons.mp hx with rfl | hx'
      · exact le_trans (le_max_left x e) (ihle (max x e) (by simp))
      · rcases List.mem_cons.mp hx' with rfl | hx''
        · exact le_trans (le_max_right d x) (ihle (max d x) (by simp))
        · exact ihle x (List.mem_cons_of_mem _ hx'')
    · rw [hfold]
      rcases List.mem_cons.mp ihmem with hm | hm
      · rcases max_choice d e with h | h <;> rw [hm, h] <;> simp
      · exact List.mem_cons_of_mem _ (List.mem_cons_of_mem _ hm)

/-- On a non-empty list, `Math.max` returns an attained upper bound. -/
theorem maxDur?_isMax (l : List ℚ) (hne : l ≠ []) :
    ∃ m, maxDur? l = some m ∧ (∀ x ∈ l, x ≤ m) ∧ m ∈ l := by
  cases l with
  | nil => exact absurd rfl hne
  | cons d ds =>
    exact ⟨ds.foldl max d, rfl, (foldl_max_spec d ds).1, (foldl_max_spec d ds).2⟩

/-- C10: for every non-empty segment timeline, both generated playlists carry
a `#EXT-X-TARGETDURATION` header (the third line of the document) equal to
the ceiling of the maximum single-segment duration of the timeline. -/
theorem C10_targetduration (segs : List Segment) (hne : segs ≠ []) :
    ∃ m : ℚ, (∀ s ∈ segs, s.dur ≤ m) ∧ (∃ s ∈ segs, s.dur = m) ∧
      (createPlaylist segs "normal").get? 2 =
        some ("#EXT-X-TARGETDURATION:" ++ toString (⌈m⌉ : ℤ)) ∧
      (createPlaylist segs "blackout").get? 2 =
        some ("#EXT-X-TARGETDURATION:" ++ toString (⌈m⌉ : ℤ)) := by
  obtain ⟨m, hm, hle, hmem⟩ := maxDur?_isMax (segs.map Segment.dur) (by simpa using hne)
  have hhd : ∀ ptype, (createPlaylist segs ptype).get? 2 =
      some ("#EXT-X-TARGETDURATION:" ++ targetDurStr segs) := by
    intro ptype
    rw [createPlaylist, List.get?_append (by simp [playlistHeader])]
    rfl
  have htd : targetDurStr segs = toString (⌈m⌉ : ℤ) := by
    rw [targetDurStr, hm]
  refine ⟨m, ?_, ?_, ?_, ?_⟩
  · intro s hs; exact hle _ (List.mem_map_of_mem _ hs)
  · obtain ⟨s, hs, hds⟩ := List.mem_map.mp hmem; exact ⟨s, hs, hds⟩
  · rw [hhd "normal", htd]
  · rw [hhd "blackout", htd]

/-- Witness for C10 at the single-segment timeline `(0, 7/2, false)`. -/
theorem C10_targetduration_witness :
    ∃ m : ℚ, (∀ s ∈ ([⟨0, 7/2, false⟩] : List Segment), s.dur ≤ m) ∧
      (∃ s ∈ ([⟨0, 7/2, false⟩] : List Segment), s.dur = m) ∧
      (createPlaylist [⟨0, 7/2, false⟩] "normal").get? 2 =
        some ("#EXT-X-TARGETDURATION:" ++ toString (⌈m⌉ : ℤ)) ∧
      (createPlaylist [⟨0, 7/2, false⟩] "blackout").get? 2 =
        some ("#EXT-X-TARGETDURATION:" ++ toString (⌈m⌉ : ℤ)) :=
  C10_targetduration [⟨0, 7/2, false⟩] (by simp)

/-- Indexing into a flat-mapped list of two-line blocks over `enumFrom`. -/
theorem flatMap_two_get (f g : Nat × Segment → String) (segs : List Segment) :
    ∀ (n i : Nat), i < segs.length →
      ((List.enumFrom n segs).flatMap fun p => [f p, g p]).get? (2 * i) =
          some (f (n + i, segs.getD i ⟨0, 0, false⟩)) ∧
      ((List.enumFrom n segs).flatMap fun p => [f p, g p]).get? (2 * i + 1) =
          some (g (n + i, segs.getD i ⟨0, 0, false⟩)) := by
  induction segs with
  | nil => intro n i h; exact absurd h (Nat.not_lt_zero i)
  | cons s rest ih =>
    intro n i h
    have hexp : (List.enumFrom n (s :: rest)).flatMap (fun p => [f p, g p]) =
        f (n, s) :: g (n, s) ::
          (List.enumFrom (n + 1) rest).flatMap (fun p => [f p, g p]) := rfl
    rw [hexp]
    cases i with
    | zero => simp
    | succ j =>
      have hj : j < rest.length := Nat.lt_of_succ_lt_succ h
      obtain ⟨h1, h2⟩ := ih (n + 1) j hj
      have e1 : 2 * (j + 1) = 2 * j + 1 + 1 := by ring
      have e2 : 2 * (j + 1) + 1 = 2 * j + 1 + 1 + 1 := by ring
      have e3 : n + (j + 1) = n + 1 + j := by ring
      constructor
      · rw [e1, List.get?_cons_succ, List.get?_cons_succ, e3, List.getD_cons_succ]
        exact h1
      · rw [e2, List.get?_cons_succ, List.get?_cons_succ, e3, List.getD_cons_succ]
        exact h2

/-- Each two-line block contributes two lines. -/
theorem flatMap_two_length (f g : Nat × Segment → String) (segs : List Segment) :
    ∀ n : Nat,
      ((List.enumFrom n segs).flatMap fun p => [f p, g p]).length = 2 * segs.length := by
  induction segs with
  | nil => intro n; rfl
  | cons s rest ih =>
    intro n
    have hexp : (List.enumFrom n (s :: rest)).flatMap (fun p => [f p, g p]) =
        f (n, s) :: g (n, s) ::
          (List.enumFrom (n + 1) rest).flatMap (fun p => [f p, g p]) := rfl
    rw [hexp]
    simp only [List.length_cons, ih (n + 1), List.length_cons]
    ring

/-- For the `"normal"` type, the per-segment lines are `#EXTINF` followed by
the plain segment chunk name. -/
theorem segmentLines_normal (segs : List Segment) :
    segmentLines "normal" segs =
      (List.enumFrom 0 segs).flatMap fun p =>
        [("#EXTINF:" ++ ratToFixed6 p.2.dur ++ ","), segName p.1] := by
  simp [segmentLines, List.enum]

/-- For the `"blackout"` type, the per-segment lines are `#EXTINF` followed
by the blackout chunk name where `isBlackout` holds and the plain chunk name
otherwise. -/
theorem segmentLines_blackout (segs : List Segment) :
    segmentLines "blackout" segs =
      (List.enumFrom 0 segs).flatMap fun p =>
        [("#EXTINF:" ++ ratToFixed6 p.2.dur ++ ","),
         if p.2.isBlackout then blackoutName p.1 else segName p.1] := by
  simp [segmentLines, List.enum]

/-- C4: for every segment timeline, both playlists list, per segment `i` in
timeline order (lines `5 + 2i` and `6 + 2i` of the document), a duration
directive carrying the segment duration to 6 decimal places followed by a
chunk reference: the normal playlist references `segment_i` for every
segment, while the redacted playlist references `blackout_i` exactly where
`isBlackout` holds and `segment_i` otherwise; both documents end with the
`#EXT-X-ENDLIST` marker. -/
theorem C4_playlist_lines (segs : List Segment) (i : Nat) (h : i < segs.length) :
    (createPlaylist segs "normal").get? (5 + 2 * i) =
        some ("#EXTINF:" ++ ratToFixed6 (segs.getD i ⟨0, 0, false⟩).dur ++ ",") ∧
    (createPlaylist segs "normal").get? (5 + (2 * i + 1)) = some (segName i) ∧
    (createPlaylist segs "blackout").get? (5 + 2 * i) =
        some ("#EXTINF:" ++ ratToFixed6 (segs.getD i ⟨0, 0, false⟩).dur ++ ",") ∧
    (createPlaylist segs "blackout").get? (5 + (2 * i + 1)) =
        some (if (segs.getD i ⟨0, 0, false⟩).isBlackout then blackoutName i
              else segName i) ∧
    (createPlaylist segs "normal").getLast? = some "#EXT-X-ENDLIST" ∧
    (createPlaylist segs "blackout").getLast? = some "#EXT-X-ENDLIST" := by
  have hget : ∀ (ptype : String) (body : List String) (k : Nat),
      segmentLines ptype segs = body → k < body.length →
      (createPlaylist segs ptype).get? (5 + k) = body.get? k := by
    intro ptype body k hbody hk
    rw [createPlaylist, List.get?_append_right (by simp [playlistHeader])]
    have h5 : 5 + k - (playlistHeader segs).length = k := by
      simp [playlistHeader]
    rw [h5, hbody, List.get?_append hk]
  have hnlen : (segmentLines "normal" segs).length = 2 * segs.length := by
    rw [segmentLines_normal]; exact flatMap_two_length _ _ segs 0
  have hblen : (segmentLines "blackout" segs).length = 2 * segs.length := by
    rw [segmentLines_blackout]; exact flatMap_two_length _ _ segs 0
  obtain ⟨hn0, hn1⟩ := flatMap_two_get
    (fun p => "#EXTINF:" ++ ratToFixed6 p.2.dur ++ ",") (fun p => segName p.1) segs 0 i h
  obtain ⟨hb0, hb1⟩ := flatMap_two_get
    (fun p => "#EXTINF:" ++ ratToFixed6 p.2.dur ++ ",")
    (fun p => if p.2.isBlackout then blackoutName p.1 else segName p.1) segs 0 i h
  have hlast : ∀ ptype, (createPlaylist segs ptype).getLast? = some "#EXT-X-ENDLIST" := by
    intro ptype
    rw [createPlaylist, List.getLast?_append_of_ne_nil _ (by simp),
      List.getLast?_concat]
  refine ⟨?_, ?_, ?_, ?_, hlast "normal", hlast "blackout"⟩
  · rw [hget "normal" _ (2 * i) (segmentLines_normal segs) (by rw [← segmentLines_normal, hnlen]; omega)]
    simpa using hn0
  · rw [hget "normal" _ (2 * i + 1) (segmentLines_normal segs) (by rw [← segmentLines_normal, hnlen]; omega)]
    simpa using hn1
  · rw [hget "blackout" _ (2 * i) (segmentLines_blackout segs) (by rw [← segmentLines_blackout, hblen]; omega)]
    simpa using hb0
  · rw [hget "blackout" _ (2 * i + 1) (segmentLines_blackout segs) (by rw [← segmentLines_blackout, hblen]; omega)]
    simpa using hb1

/-- Witness for C4 at the two-segment timeline `(0,30,false),(30,45,true)`
and index `i = 1` (a blackout index). -/
theorem C4_playlist_lines_witness :
    (createPlaylist [⟨0, 30, false⟩, ⟨30, 45, true⟩] "normal").get? (5 + 2 * 1) =
        some ("#EXTINF:" ++
          ratToFixed6 (([⟨0, 30, false⟩, ⟨30, 45, true⟩] : List Segment).getD 1
            ⟨0, 0, false⟩).dur ++ ",") ∧
    (createPlaylist [⟨0, 30, false⟩, ⟨30, 45, true⟩] "normal").get? (5 + (2 * 1 + 1)) =
        some (segName 1) ∧
    (createPlaylist [⟨0, 30, false⟩, ⟨30, 45, true⟩] "blackout").get? (5 + 2 * 1) =
        some ("#EXTINF:" ++
          ratToFixed6 (([⟨0, 30, false⟩, ⟨30, 45, true⟩] : List Segment).getD 1
            ⟨0, 0, false⟩).dur ++ ",") ∧
    (createPlaylist [⟨0, 30, false⟩, ⟨30, 45, true⟩] "blackout").get? (5 + (2 * 1 + 1)) =
        some (if (([⟨0, 30, false⟩, ⟨30, 45, true⟩] : List Segment).getD 1
            ⟨0, 0, false⟩).isBlackout then blackoutName 1 else segName 1) ∧
    (createPlaylist [⟨0, 30, false⟩, ⟨30, 45, true⟩] "normal").getLast? =
        some "#EXT-X-ENDLIST" ∧
    (createPlaylist [⟨0, 30, false⟩, ⟨30, 45, true⟩] "blackout").getLast? =
        some "#EXT-X-ENDLIST" :=
  C4_playlist_lines [⟨0, 30, false⟩, ⟨30, 45, true⟩] 1 (by norm_num)

/-! ## Generated-chunk bookkeeping (C3) -/

/-- The extraction loop visits every timeline index. -/
theorem extractionIndices_eq_range (segs : List Segment) :
    extractionIndices segs = List.range segs.length := by
  rw [extractionIndices]
  exact List.enum_map_fst segs

/-- Indices produced by the filler loop on `enumFrom m` are at least `m`. -/
theorem fillerAux_ge (rest : List Segment) (m : Nat) :
    ∀ j ∈ (((List.enumFrom m rest).filter fun p => p.2.isBlackout).map
      fun p => p.1), m ≤ j := by
  intro j hj
  obtain ⟨p, hp, rfl⟩ := List.mem_map.mp hj
  exact List.le_fst_of_mem_enumFrom (List.mem_of_mem_filter hp)

/-- Counting a filler-loop index over `enumFrom n`: index `n + i` is
produced once when segment `i` is blackout and never otherwise. -/
theorem fillerAux_count (segs : List Segment) :
    ∀ (n i : Nat), i < segs.length →
      ((((List.enumFrom n segs).filter fun p => p.2.isBlackout).map
        fun p => p.1).count (n + i)) =
        if (segs.getD i ⟨0, 0, false⟩).isBlackout then 1 else 0 := by
  induction segs with
  | nil => intro n i h; exact absurd h (Nat.not_lt_zero i)
  | cons s rest ih =>
    intro n i h
    have hM : ∀ j ∈ (((List.enumFrom (n + 1) rest).filter
        fun p => p.2.isBlackout).map fun p => p.1), n + 1 ≤ j :=
      fillerAux_ge rest (n + 1)
    have henum : List.enumFrom n (s :: rest) = (n, s) :: List.enumFrom (n + 1) rest := rfl
    rw [henum]
    cases hb : s.isBlackout with
    | true =>
      rw [List.filter_cons_of_pos (by simpa using hb), List.map_cons]
      cases i with
      | zero =>
        have hnot : n ∉ (((List.enumFrom (n + 1) rest).filter
            fun p => p.2.isBlackout).map fun p => p.1) := by
          intro hmem
          have := hM _ hmem
          omega
        rw [Nat.add_zero, List.count_cons_self, List.count_eq_zero.mpr hnot]
        simp [hb]
      | succ j =>
        have hj : j < rest.length := Nat.lt_of_succ_lt_succ h
        have e3 : n + (j + 1) = n + 1 + j := by ring
        rw [List.count_cons_of_ne (by omega), e3, ih (n + 1) j hj,
          List.getD_cons_succ]
    | false =>
      rw [List.filter_cons_of_neg (by simpa using hb)]
      cases i with
      | zero =>
        have hnot : n ∉ (((List.enumFrom (n + 1) rest).filter
            fun p => p.2.isBlackout).map fun p => p.1) := by
          intro hmem
          have := hM _ hmem
          omega
        rw [Nat.add_zero, List.count_eq_zero.mpr hnot]
        simp [hb]
      | succ j =>
        have hj : j < rest.length := Nat.lt_of_succ_lt_succ h
        have e3 : n + (j + 1) = n + 1 + j := by ring
        rw [e3, ih (n + 1) j hj, List.getD_cons_succ]

/-- Counting version at `n = 0` for `fillerIndices`. -/
theorem fillerIndices_count (segs : List Segment) (i : Nat) (h : i < segs.length) :
    (fillerIndices segs).count i =
      if (segs.getD i ⟨0, 0, false⟩).isBlackout then 1 else 0 := by
  have := fillerAux_count segs 0 i h
  simpa [fillerIndices, List.enum] using this

/-- C3 counterexample: on the single-segment blackout timeline
`[(0, 5, blackout)]` the extraction loop still runs at index 0 (which is a
blackout index, and the timeline has no non-blackout segment at all), and
two chunk files are generated for that single index — refuting both
"extraction exactly for the non-blackout segments" and "exactly one chunk
actually generated per index". -/
theorem C3_counterexample :
    (([⟨0, 5, true⟩] : List Segment).filter fun s => !s.isBlackout) = [] ∧
    extractionIndices [⟨0, 5, true⟩] = [0] ∧
    chunkCount [⟨0, 5, true⟩] 0 = 2 := by
  refine ⟨rfl, rfl, rfl⟩

/-- C3 (amended): the artifact generator invokes the transcoder's range
extraction for EVERY timeline index — blackout indices included — and the
filler synthesizer exactly for the blackout indices; consequently a
non-blackout index yields exactly one generated chunk (`segment_i`), while a
blackout index yields two (`segment_i` and `blackout_i`). -/
theorem C3_generator_amended (segs : List Segment) (i : Nat) (h : i < segs.length) :
    extractionIndices segs = List.range segs.length ∧
    (extractionIndices segs).count i = 1 ∧
    (fillerIndices segs).count i =
      (if (segs.getD i ⟨0, 0, false⟩).isBlackout then 1 else 0) ∧
    chunkCount segs i =
      (if (segs.getD i ⟨0, 0, false⟩).isBlackout then 2 else 1) := by
  have h1 := extractionIndices_eq_range segs
  have h2 : (extractionIndices segs).count i = 1 := by
    rw [h1]
    exact List.count_eq_one_of_mem (List.nodup_range _) (List.mem_range.mpr h)
  have h3 := fillerIndices_count segs i h
  refine ⟨h1, h2, h3, ?_⟩
  rw [chunkCount, h2, h3]
  cases (segs.getD i ⟨0, 0, false⟩).isBlackout <;> simp

/-- Witness for the amended C3 at the blackout timeline `[(0, 5, blackout)]`,
index 0. -/
theorem C3_generator_amended_witness :
    extractionIndices [⟨0, 5, true⟩] = List.range ([⟨0, 5, true⟩] : List Segment).length ∧
    (extractionIndices [⟨0, 5, true⟩]).count 0 = 1 ∧
    (fillerIndices [⟨0, 5, true⟩]).count 0 =
      (if (([⟨0, 5, true⟩] : List Segment).getD 0 ⟨0, 0, false⟩).isBlackout
       then 1 else 0) ∧
    chunkCount [⟨0, 5, true⟩] 0 =
      (if (([⟨0, 5, true⟩] : List Segment).getD 0 ⟨0, 0, false⟩).isBlackout
       then 2 else 1) :=
  C3_generator_amended [⟨0, 5, true⟩] 0 (by norm_num)

/-- C7 counterexample: a line that is *not* exactly a key of the map (it has
a leading space) is nevertheless replaced by the code, because the code
compares the *trimmed* line against the keys; the spec's exact-match rewrite
leaves it unchanged. -/
theorem C7_counterexample :
    updatePlaylistContent [" segment_000.ts"] [("segment_000.ts", "u")] = ["u"] ∧
    List.lookup " segment_000.ts" [("segment_000.ts", "u")] = none ∧
    ([" segment_000.ts"].map (specRewriteLine [("segment_000.ts", "u")])) =
      [" segment_000.ts"] ∧
    (["u"] : List String) ≠ [" segment_000.ts"] := by decide

/-- C7 (amended): `updatePlaylistContent` preserves the number and order of
lines, and replaces line `k` with a mapped URL exactly when the *trimmed*
line ends with `.ts` and is a key of the map bound to a non-empty URL; every
other line passes through unchanged. -/
theorem C7_rewrite_amended (m : List (String × String)) (lines : List String) :
    (updatePlaylistContent lines m).length = lines.length ∧
    ∀ k, k < lines.length →
      ∃ line, lines.get? k = some line ∧
        ((endsWithStr ".ts" (trimStr line) = true ∧
          ∃ url, m.lookup (trimStr line) = some url ∧ url ≠ "" ∧
            (updatePlaylistContent lines m).get? k = some url) ∨
         ((endsWithStr ".ts" (trimStr line) = false ∨
           m.lookup (trimStr line) = none ∨
           m.lookup (trimStr line) = some "") ∧
          (updatePlaylistContent lines m).get? k = some line)) := by
  refine ⟨by simp [updatePlaylistContent], ?_⟩
  intro k hk
  have hline : lines.get? k = some (lines.get ⟨k, hk⟩) := List.get?_eq_get hk
  refine ⟨lines.get ⟨k, hk⟩, hline, ?_⟩
  set line := lines.get ⟨k, hk⟩ with hdef
  have hres : ∀ v, rewriteLine m line = v →
      (updatePlaylistContent lines m).get? k = some v := by
    intro v hv
    rw [updatePlaylistContent, List.get?_map, hline]
    simp [hv]
  by_cases hts : endsWithStr ".ts" (trimStr line) = true
  · cases hlk : m.lookup (trimStr line) with
    | none =>
      exact Or.inr ⟨Or.inr (Or.inl rfl),
        hres line (by rw [rewriteLine, if_pos hts, hlk])⟩
    | some url =>
      by_cases hurl : url = ""
      · subst hurl
        exact Or.inr ⟨Or.inr (Or.inr rfl),
          hres line (by rw [rewriteLine, if_pos hts, hlk]; simp)⟩
      · exact Or.inl ⟨hts, url, rfl, hurl,
          hres url (by rw [rewriteLine, if_pos hts, hlk]; simp [hurl])⟩
  · have hts' : endsWithStr ".ts" (trimStr line) = false := by simpa using hts
    exact Or.inr ⟨Or.inl hts', hres line (by rw [rewriteLine, if_neg hts])⟩

/-- A successful `lookup` exhibits a pair of the association list. -/
theorem mem_of_lookup_eq_some {m : List (String × String)} {k v : String}
    (h : m.lookup k = some v) : (k, v) ∈ m := by
  induction m with
  | nil => simp [List.lookup] at h
  | cons p rest ih =>
    obtain ⟨pk, pv⟩ := p
    cases hbeq : k == pk with
    | true =>
      simp only [List.lookup, hbeq] at h
      obtain rfl : pv = v := by simpa using h
      obtain rfl : k = pk := eq_of_beq hbeq
      exact List.mem_cons_self _ _
    | false =>
      simp only [List.lookup, hbeq] at h
      exact List.mem_cons_of_mem _ (ih h)

/-- C6: rewriting is idempotent for every mapping whose values are never
themselves (after trimming) keys of the mapping — which is the shape of a
`PublishedArtifactMap`, whose keys are local file names and whose values are
full URLs — and each rewrite preserves line count and order (the result is
the pointwise image of the input lines). -/
theorem C6_rewrite_idempotent (m : List (String × String)) (lines : List String)
    (hval : ∀ p ∈ m, m.lookup (trimStr p.2) = none) :
    updatePlaylistContent (updatePlaylistContent lines m) m =
      updatePlaylistContent lines m ∧
    (updatePlaylistContent lines m).length = lines.length ∧
    ∀ k, (updatePlaylistContent lines m).get? k = (lines.get? k).map (rewriteLine m) := by
  have hline : ∀ line, rewriteLine m (rewriteLine m line) = rewriteLine m line := by
    intro line
    by_cases hts : endsWithStr ".ts" (trimStr line) = true
    · cases hlk : m.lookup (trimStr line) with
      | none =>
        have hid : rewriteLine m line = line := by rw [rewriteLine, if_pos hts, hlk]
        rw [hid, hid]
      | some url =>
        by_cases hurl : url = ""
        · have hid : rewriteLine m line = line := by
            rw [rewriteLine, if_pos hts, hlk]
            subst hurl
            simp
          rw [hid, hid]
        · have hid : rewriteLine m line = url := by
            rw [rewriteLine, if_pos hts, hlk]
            simp [hurl]
          rw [hid]
          have hu : m.lookup (trimStr url) = none :=
            hval _ (mem_of_lookup_eq_some hlk)
          by_cases hts' : endsWithStr ".ts" (trimStr url) = true
          · rw [rewriteLine, if_pos hts', hu]
          · rw [rewriteLine, if_neg hts']
    · have hid : rewriteLine m line = line := by rw [rewriteLine, if_neg hts]
      rw [hid, hid]
  refine ⟨?_, by simp [updatePlaylistContent], ?_⟩
  · rw [updatePlaylistContent, updatePlaylistContent, List.map_map]
    exact List.map_congr_left fun line _ => hline line
  · intro k
    rw [updatePlaylistContent, List.get?_map]

/-- Witness for C6 at a one-chunk published-artifact map and a typical
four-line playlist. -/
theorem C6_rewrite_idempotent_witness :
    updatePlaylistContent
        (updatePlaylistContent
          ["#EXTM3U", "#EXTINF:5.000000,", "segment_000.ts", "#EXT-X-ENDLIST"]
          [("segment_000.ts", "https://b.s3.amazonaws.com/c/segment_000.ts")])
        [("segment_000.ts", "https://b.s3.amazonaws.com/c/segment_000.ts")] =
      updatePlaylistContent
        ["#EXTM3U", "#EXTINF:5.000000,", "segment_000.ts", "#EXT-X-ENDLIST"]
        [("segment_000.ts", "https://b.s3.amazonaws.com/c/segment_000.ts")] ∧
    (updatePlaylistContent
        ["#EXTM3U", "#EXTINF:5.000000,", "segment_000.ts", "#EXT-X-ENDLIST"]
        [("segment_000.ts", "https://b.s3.amazonaws.com/c/segment_000.ts")]).length =
      (["#EXTM3U", "#EXTINF:5.000000,", "segment_000.ts", "#EXT-X-ENDLIST"] :
        List String).length ∧
    ∀ k, (updatePlaylistContent
        ["#EXTM3U", "#EXTINF:5.000000,", "segment_000.ts", "#EXT-X-ENDLIST"]
        [("segment_000.ts", "https://b.s3.amazonaws.com/c/segment_000.ts")]).get? k =
      ((["#EXTM3U", "#EXTINF:5.000000,", "segment_000.ts", "#EXT-X-ENDLIST"] :
        List String).get? k).map
        (rewriteLine [("segment_000.ts", "https://b.s3.amazonaws.com/c/segment_000.ts")]) :=
  C6_rewrite_idempotent
    [("segment_000.ts", "https://b.s3.amazonaws.com/c/segment_000.ts")]
    ["#EXTM3U", "#EXTINF:5.000000,", "segment_000.ts", "#EXT-X-ENDLIST"]
    (by decide)

/-- Witness for the amended C7 at a concrete map and line list exercising
both the replaced and the pass-through branch. -/
theorem C7_rewrite_amended_witness :
    (updatePlaylistContent ["#EXTM3U", "segment_000.ts"]
        [("segment_000.ts", "u")]).length =
      (["#EXTM3U", "segment_000.ts"] : List String).length ∧
    ∀ k, k < (["#EXTM3U", "segment_000.ts"] : List String).length →
      ∃ line, (["#EXTM3U", "segment_000.ts"] : List String).get? k = some line ∧
        ((endsWithStr ".ts" (trimStr line) = true ∧
          ∃ url, List.lookup (trimStr line) [("segment_000.ts", "u")] = some url ∧
            url ≠ "" ∧
            (updatePlaylistContent ["#EXTM3U", "segment_000.ts"]
              [("segment_000.ts", "u")]).get? k = some url) ∨
         ((endsWithStr ".ts" (trimStr line) = false ∨
           List.lookup (trimStr line) [("segment_000.ts", "u")] = none ∨
           List.lookup (trimStr line) [("segment_000.ts", "u")] = some "") ∧
          (updatePlaylistContent ["#EXTM3U", "segment_000.ts"]
            [("segment_000.ts", "u")]).get? k = some line)) :=
  C7_rewrite_amended [("segment_000.ts", "u")] ["#EXTM3U", "segment_000.ts"]

/-- Looking up a published file in the publish map yields its URL. -/
theorem lookup_publishMap (pre : String) (files : List String) (x : String)
    (hx : x ∈ files) : (publishMap pre files).lookup x = some (pre ++ x) := by
  induction files with
  | nil => cases hx
  | cons f fs ih =>
    rw [publishMap, List.map_cons]
    by_cases h : x = f
    · subst h
      simp [List.lookup]
    · rcases List.mem_cons.mp hx with rfl | hx'
      · exact absurd rfl h
      · have hbeq : (x == f) = false := by simp [h]
        simp only [List.lookup, hbeq]
        exact ih hx'

/-- A string ending in `.ts` is non-empty, so its published URL is truthy. -/
theorem publishedUrl_ne_empty (pre f : String) (h : endsWithStr ".ts" f = true) :
    pre ++ f ≠ "" := by
  intro hemp
  have hdata : pre.data ++ f.data = ([] : List Char) := congrArg String.data hemp
  have hf : f.data = [] := (List.append_eq_nil.mp hdata).2
  rw [endsWithStr, hf] at h
  exact absurd h (by decide)

/-- The URL base is a character-prefix of every published URL. -/
theorem isPrefixOf_publishedUrl (pre f : String) :
    pre.data.isPrefixOf (pre ++ f).data = true :=
  List.isPrefixOf_iff_prefix.mpr (List.prefix_append _ _)

/-- Stripping the URL base from a published URL restores the file name. -/
theorem stripLine_publishedUrl (pre f : String) : stripLine pre (pre ++ f) = f := by
  rw [stripLine, if_pos (isPrefixOf_publishedUrl pre f)]
  show String.mk ((pre.data ++ f.data).drop pre.data.length) = f
  rw [List.drop_left]

/-- C8: the fetch-side strip is the inverse of the publish-side rewrite.
For a raw playlist whose lines are either published chunk references
(whitespace-clean names of published files ending in `.ts`) or metadata
lines (not ending in `.ts` after trimming, and not starting with the remote
URL base), rewriting with the `PublishedArtifactMap` returned by publishing
the files under the base and then stripping the base from every line that
starts with it restores the original playlist. -/
theorem C8_strip_inverse (pre : String) (files : List String) (lines : List String)
    (hl : ∀ line ∈ lines,
        (line ∈ files ∧ trimStr line = line ∧ endsWithStr ".ts" line = true) ∨
        (endsWithStr ".ts" (trimStr line) = false ∧
          pre.data.isPrefixOf line.data = false)) :
    stripPlaylistLines pre (updatePlaylistContent lines (publishMap pre files)) =
      lines := by
  rw [updatePlaylistContent, stripPlaylistLines, List.map_map]
  conv_rhs => rw [← List.map_id lines]
  refine List.map_congr_left ?_
  intro line hmem
  rcases hl line hmem with ⟨hfile, htrim, hts⟩ | ⟨hts, hpre⟩
  · have hrw : rewriteLine (publishMap pre files) line = pre ++ line := by
      rw [rewriteLine, htrim, if_pos hts, lookup_publishMap pre files line hfile]
      simp [publishedUrl_ne_empty pre line hts]
    show stripLine pre (rewriteLine (publishMap pre files) line) = line
    rw [hrw, stripLine_publishedUrl]
  · have hrw : rewriteLine (publishMap pre files) line = line := by
      rw [rewriteLine, if_neg (by simp [hts])]
    show stripLine pre (rewriteLine (publishMap pre files) line) = line
    rw [hrw, stripLine, if_neg (by simp [hpre])]

/-- Witness for C8 at a concrete URL base, file set and raw playlist. -/
theorem C8_strip_inverse_witness :
    stripPlaylistLines "https://b.s3.us-east-1.amazonaws.com/videos/c1/"
        (updatePlaylistContent
          ["#EXTM3U", "#EXTINF:5.000000,", "segment_000.ts", "#EXT-X-ENDLIST"]
          (publishMap "https://b.s3.us-east-1.amazonaws.com/videos/c1/"
            ["segment_000.ts", "output.m3u8", "blackout.m3u8"])) =
      ["#EXTM3U", "#EXTINF:5.000000,", "segment_000.ts", "#EXT-X-ENDLIST"] :=
  C8_strip_inverse "https://b.s3.us-east-1.amazonaws.com/videos/c1/"
    ["segment_000.ts", "output.m3u8", "blackout.m3u8"]
    ["#EXTM3U", "#EXTINF:5.000000,", "segment_000.ts", "#EXT-X-ENDLIST"]
    (by decide)

/-- C2: after a successful modify with a newly planned timeline, the keys
under the job's folder are exactly the images of the new local artifacts
(chunks and the two playlists); no key of the previous layout survives,
whatever the starting bucket content was. -/
theorem C2_modify_remote_exact (pre : String) (segs : List Segment)
    (keys : List String) (k : String) :
    (k ∈ modifyRemoteKeys pre (localFiles segs) keys ∧
        pre.data.isPrefixOf k.data = true) ↔
      ∃ f ∈ localFiles segs, k = pre ++ f := by
  constructor
  · rintro ⟨hmem, hpre⟩
    rw [modifyRemoteKeys] at hmem
    rcases List.mem_append.mp hmem with h12 | h3
    · rcases List.mem_append.mp h12 with h1 | h2
      · obtain ⟨-, hcond⟩ := List.mem_filter.mp h1
        rw [hpre] at hcond
        simp at hcond
      · obtain ⟨f, hf, rfl⟩ := List.mem_map.mp h2
        exact ⟨f, hf, rfl⟩
    · have hout : "output.m3u8" ∈ localFiles segs := by
        rw [localFiles]
        exact List.mem_append.mpr (Or.inr (by simp))
      have hbl : "blackout.m3u8" ∈ localFiles segs := by
        rw [localFiles]
        exact List.mem_append.mpr (Or.inr (by simp))
      rcases List.mem_cons.mp h3 with rfl | h3'
      · exact ⟨"output.m3u8", hout, rfl⟩
      · rcases List.mem_cons.mp h3' with rfl | h3''
        · exact ⟨"blackout.m3u8", hbl, rfl⟩
        · cases h3''
  · rintro ⟨f, hf, rfl⟩
    refine ⟨?_, isPrefixOf_publishedUrl pre f⟩
    rw [modifyRemoteKeys]
    exact List.mem_append.mpr (Or.inl (List.mem_append.mpr
      (Or.inr (List.mem_map_of_mem _ hf))))

/-- C9: the stored record changes only when the whole modify flow succeeds,
and then exactly to the new redacted locator and blackout-interval list; on
any failing step (missing fields, unknown lock, invalid original URL, fetch,
generation, delete, upload, cleanup) the stored record is unchanged. -/
theorem C9_store_updated_only_on_success (fieldsPresent : Bool)
    (store : Option LockRecord) (download generation deleteStep : Except String Unit)
    (uploadChunks : Except String (List (String × String)))
    (uploadNormal uploadBlackout : Except String String)
    (cleanup : Except String Unit) (newLocks : List Interval) :
    (∃ url lock, store = some lock ∧
      (modifyAES fieldsPresent store download generation deleteStep uploadChunks
        uploadNormal uploadBlackout cleanup newLocks).1 = ModifyOutcome.ok url ∧
      (modifyAES fieldsPresent store download generation deleteStep uploadChunks
        uploadNormal uploadBlackout cleanup newLocks).2 =
        some { lock with lockedcontenturl := url, blackoutLocks := newLocks }) ∨
    ((modifyAES fieldsPresent store download generation deleteStep uploadChunks
        uploadNormal uploadBlackout cleanup newLocks).1.isOk = false ∧
      (modifyAES fieldsPresent store download generation deleteStep uploadChunks
        uploadNormal uploadBlackout cleanup newLocks).2 = store) := by
  cases fieldsPresent with
  | false => exact Or.inr ⟨rfl, rfl⟩
  | true =>
    cases store with
    | none => exact Or.inr ⟨rfl, rfl⟩
    | some lock =>
      by_cases hsplit : (lock.originalcontentUrl.splitOn ".amazonaws.com/").length < 2
      · exact Or.inr ⟨by simp [modifyAES, hsplit, ModifyOutcome.isOk],
          by simp [modifyAES, hsplit]⟩
      · cases download with
        | error e => exact Or.inr ⟨by simp [modifyAES, hsplit, ModifyOutcome.isOk],
            by simp [modifyAES, hsplit]⟩
        | ok u1 =>
          cases generation with
          | error e => exact Or.inr ⟨by simp [modifyAES, hsplit, ModifyOutcome.isOk],
              by simp [modifyAES, hsplit]⟩
          | ok u2 =>
            cases deleteStep with
            | error e => exact Or.inr ⟨by simp [modifyAES, hsplit, ModifyOutcome.isOk],
                by simp [modifyAES, hsplit]⟩
            | ok u3 =>
              cases uploadChunks with
              | error e => exact Or.inr ⟨by simp [modifyAES, hsplit, ModifyOutcome.isOk],
                  by simp [modifyAES, hsplit]⟩
              | ok mmap =>
                cases uploadNormal with
                | error e => exact Or.inr ⟨by simp [modifyAES, hsplit, ModifyOutcome.isOk],
                    by simp [modifyAES, hsplit]⟩
                | ok nurl =>
                  cases uploadBlackout with
                  | error e =>
                    exact Or.inr ⟨by simp [modifyAES, hsplit, ModifyOutcome.isOk],
                      by simp [modifyAES, hsplit]⟩
                  | ok burl =>
                    cases cleanup with
                    | error e =>
                      exact Or.inr ⟨by simp [modifyAES, hsplit, ModifyOutcome.isOk],
                        by simp [modifyAES, hsplit]⟩
                    | ok u4 =>
                      exact Or.inl ⟨burl, lock, rfl,
                        by simp [modifyAES, hsplit],
                        by simp [modifyAES, hsplit]⟩

end Canvas
